import Mathlib

-- Shallow embedding of the drone-provenance repository:
-- the step-selection phases, the stage-roster construction and the
-- provenance assembly of pkg/drone/exec.go, the sequence counter,
-- the JSON log streamer of pkg/drone/pipeline_logger.go and the
-- per-step jsonlogger write sink.

namespace DroneProvenance

-- Run policies of runtime.RunPolicy used by the selection code.
inductive RunPolicy where
  | runOnSuccess
  | runOnFailure
  | runAlways
  | runNever
  deriving DecidableEq, Repr

-- Error policies of runtime.ErrPolicy (only ErrIgnore is inspected).
inductive ErrPolicy where
  | errFail
  | errFailFast
  | errIgnore
  deriving DecidableEq, Repr

-- The fields of engine.Step that the selection and provenance code read.
structure Step where
  name : String
  image : String
  runPolicy : RunPolicy
  errPolicy : ErrPolicy
  deriving DecidableEq, Repr

-- The fields of drone.Step that the roster-building loop writes and the
-- streamer reads.
structure DroneStep where
  stageID : Int
  number : Int
  name : String
  status : String
  errIgnore : Bool
  deriving DecidableEq, Repr

def statusPending : String := "pending"

def statusError : String := "error"

def statusFailing : String := "failure"

def statusKilled : String := "killed"

def statusPassing : String := "success"

-- sequence: the mutex-protected counter of exec.go; the mutex linearizes
-- next and curr, so the embedding is the sequential state transformer.
-- The counter starts at the zero value and only increments.
structure sequence where
  value : Nat
  deriving DecidableEq, Repr

-- next returns the next sequence value (increment, then read).
def sequence.next (s : sequence) : Nat × sequence :=
  (s.value + 1, ⟨s.value + 1⟩)

-- curr returns the current sequence value without mutating the counter.
def sequence.curr (s : sequence) : Nat × sequence :=
  (s.value, s)

-- nextCalls performs n successive next calls, collecting the returned
-- values and threading the counter state.
def nextCalls : Nat → sequence → List Nat × sequence
  | 0, s => ([], s)
  | n + 1, s =>
    let r := s.next
    let rest := nextCalls n r.2
    (r.1 :: rest.1, rest.2)

-- splitOnChar c l: the list of chunks of l separated by c, the semantics
-- of Go strings.Split with a one-character separator.
def splitOnChar (c : Char) : List Char → List (List Char)
  | [] => [[]]
  | a :: rest =>
    match splitOnChar c rest with
    | [] => [[]]
    | h :: t => if a = c then [] :: h :: t else (a :: h) :: t

-- trimSuffixNl: Go strings.TrimSuffix(s, "\n"), removing at most one
-- trailing newline.
def trimSuffixNl (b : List Char) : List Char :=
  if b.getLast? = some '\n' then b.dropLast else b

-- split of the jsonlogger file: trim one trailing newline, then split the
-- input on newlines.
def split (b : List Char) : List String :=
  (splitOnChar '\n' (trimSuffixNl b)).map (fun l => String.mk l)

-- A value stored in one key of a structured log record.
inductive LogVal where
  | intVal (i : Int)
  | strVal (s : String)
  deriving DecidableEq, Repr

-- The record that jsonlogger.Write hands to writer.Add for one line, with
-- the keys in the order they are written in the source.
def mkRecord (number : Int) (name : String) (part : String) : List (String × LogVal) :=
  [("stepNumber", LogVal.intVal number), ("stepName", LogVal.strVal name),
   ("line", LogVal.strVal part)]

-- addAll: the loop body of Write over the split parts; addErr models the
-- external writer.Add collaborator (none = success).  On the first failing
-- append the loop stops: earlier records stand, later lines are dropped.
def addAll (addErr : List (String × LogVal) → Option String) :
    List (List (String × LogVal)) → List (List (String × LogVal)) × Option String
  | [] => ([], none)
  | r :: rs =>
    match addErr r with
    | some e => ([], some e)
    | none =>
      let rest := addAll addErr rs
      (r :: rest.1, rest.2)

-- jsonlogger: the per-step write sink.  The writer handle is modelled by
-- its file name; seq is carried exactly as in the source.
structure jsonlogger where
  name : String
  number : Int
  writer : String
  seq : sequence
  deriving DecidableEq, Repr

-- The result of one Write call: the records appended to the shared store,
-- the byte count returned (always the full input length, as in the
-- source), and the surfaced error, if any.
structure WriteResult where
  appended : List (List (String × LogVal))
  n : Nat
  err : Option String
  deriving DecidableEq, Repr

-- jsonlogger.write: Write of the jsonlogger; note that it never touches
-- j.seq, exactly as the source does not.
def jsonlogger.write (j : jsonlogger) (addErr : List (String × LogVal) → Option String)
    (b : List Char) : WriteResult :=
  let res := addAll addErr ((split b).map (fun part => mkRecord j.number j.name part))
  ⟨res.1, b.length, res.2⟩

-- jSONFileStreamer of pipeline_logger.go; writer is modelled by the file
-- name it was opened on.
structure jSONFileStreamer where
  seq : sequence
  col : sequence
  logFile : String
  writer : String
  deriving DecidableEq, Repr

-- Stream: find the first roster step with the requested name and build a
-- jsonlogger tagged with its name and number.  The source dereferences
-- the found step unconditionally; the none branch models the nil-step
-- access that happens when no roster step matches.
def jSONFileStreamer.stream (j : jSONFileStreamer) (stageSteps : List DroneStep)
    (name : String) : Option jsonlogger :=
  match stageSteps.find? (fun s => s.name == name) with
  | some c => some { writer := j.writer, seq := j.seq, name := c.name, number := c.number }
  | none => none

-- includeMark: the body of the include-phase loop for one step (the
-- labelled continue preserves steps whose name occurs in the include
-- list, and the clone step is always preserved).
def includeMark (incl : List String) (step : Step) : Step :=
  if step.name = "clone" then step
  else if incl.contains step.name then step
  else { step with runPolicy := RunPolicy.runNever }

-- Include phase: runs only when the include list is non-empty.
def includePhase (incl : List String) (steps : List Step) : List Step :=
  if 0 < incl.length then steps.map (includeMark incl) else steps

-- excludeMark: the body of the exclude-phase loop for one step.
def excludeMark (excl : List String) (step : Step) : Step :=
  if step.name = "clone" then step
  else if excl.contains step.name then { step with runPolicy := RunPolicy.runNever }
  else step

-- Exclude phase: runs only when the exclude list is non-empty.
def excludePhase (excl : List String) (steps : List Step) : List Step :=
  if 0 < excl.length then steps.map (excludeMark excl) else steps

-- resumeMark: the body of the resume-at loop for one step scanned before
-- the resume point (clone untouched, excluded names marked Never).
def resumeMark (excl : List String) (step : Step) : Step :=
  if step.name = "clone" then step
  else if excl.contains step.name then { step with runPolicy := RunPolicy.runNever }
  else step

-- Resume-at phase: scan in declared order, stopping (break) at the first
-- step whose name equals the resume-at name.
def resumePhase (resumeAt : String) (excl : List String) : List Step → List Step
  | [] => []
  | step :: rest =>
    if step.name = resumeAt then step :: rest
    else resumeMark excl step :: resumePhase resumeAt excl rest

-- selectSteps: the three selection phases of exec, in source order; the
-- resume phase runs only when a resume-at name was given.
def selectSteps (incl excl : List String) (resumeAt : String) (steps : List Step) :
    List Step :=
  let s1 := includePhase incl steps
  let s2 := excludePhase excl s1
  if resumeAt ≠ "" then resumePhase resumeAt excl s2 else s2

-- buildStageSteps: the roster-building loop of exec; steps whose run
-- policy is RunNever are skipped (continue), the others are appended to
-- the stage step roster with a fresh one-based number.
def buildStageSteps (stageID : Int) (acc : List DroneStep) : List Step → List DroneStep
  | [] => acc
  | step :: rest =>
    if step.runPolicy = RunPolicy.runNever then buildStageSteps stageID acc rest
    else
      buildStageSteps stageID
        (acc ++ [{ stageID := stageID, number := (acc.length : Int) + 1, name := step.name,
                   status := statusPending, errIgnore := step.errPolicy = ErrPolicy.errIgnore }])
        rest

-- One provenance material: an image reference with its digest set.
structure ProvenanceMaterial where
  uri : String
  digest : List (String × String)
  deriving DecidableEq, Repr

-- materials: one entry per step of the spec, in declared order; digestOf
-- models the crane.Digest collaborator, whose error is discarded so a
-- failed lookup yields the empty digest string.
def materials (steps : List Step) (digestOf : String → Option String) :
    List ProvenanceMaterial :=
  steps.map (fun s =>
    let dig := (digestOf s.image).getD ""
    { uri := "pkg:" ++ s.image ++ "@" ++ dig, digest := [("sha256", dig)] })

def statementTypeInTotoV01 : String := "https://in-toto.io/Statement/v0.1"

def predicateSLSAProvenance : String := "https://slsa.dev/provenance/v0.2"

def droneBuilderID : String := "https://harness.drone.io/Attestations/DockerRunner"

-- The provenance statement assembled by generateStatement, flattened to
-- the fields the source populates.
structure ProvenanceStatement where
  statementType : String
  predicateType : String
  subject : List String
  buildType : String
  builderId : String
  buildInvocationID : String
  parameters : List (String × String)
  buildConfigSteps : List Step
  mats : List ProvenanceMaterial
  deriving DecidableEq, Repr

-- mkStatement: the pure assembly part of generateStatement.
def mkStatement (pKind pType : String) (buildID : Int) (params : List (String × String))
    (steps : List Step) (digestOf : String → Option String) : ProvenanceStatement :=
  { statementType := statementTypeInTotoV01
    predicateType := predicateSLSAProvenance
    subject := []
    buildType := pKind ++ "/" ++ pType
    builderId := droneBuilderID
    buildInvocationID := toString buildID
    parameters := params
    buildConfigSteps := steps
    mats := materials steps digestOf }

-- cleanFold: the dot-segment resolution of Go path.Clean, expressed over
-- the list of slash-separated segments (acc holds the resolved segments
-- in reverse).
def cleanFold (rooted : Bool) (acc : List (List Char)) : List (List Char) → List (List Char)
  | [] => acc.reverse
  | seg :: rest =>
    if seg = [] ∨ seg = ['.'] then cleanFold rooted acc rest
    else if seg = ['.', '.'] then
      match acc with
      | top :: acc2 =>
        if top = ['.', '.'] then cleanFold rooted (seg :: top :: acc2) rest
        else cleanFold rooted acc2 rest
      | [] => if rooted then cleanFold rooted [] rest else cleanFold rooted [seg] rest
    else cleanFold rooted (seg :: acc) rest

-- clean: Go path.Clean.
def clean (s : String) : String :=
  if s = "" then "."
  else
    let cs := s.toList
    let rooted := cs.head? = some '/'
    let segs := cleanFold rooted [] (splitOnChar '/' cs)
    let body := String.intercalate "/" (segs.map (fun l => String.mk l))
    if rooted then (if body = "" then "/" else "/" ++ body)
    else (if body = "" then "." else body)

-- dirPath: Go path.Dir — everything up to and including the final slash,
-- cleaned.
def dirPath (p : String) : String :=
  clean (String.mk ((p.toList.reverse.dropWhile (fun c => c ≠ '/')).reverse))

-- basePath: Go path.Base — strip trailing slashes, then keep the part
-- after the final slash.
def basePath (p : String) : String :=
  if p = "" then "."
  else
    let cs := (p.toList.reverse.dropWhile (fun c => c = '/')).reverse
    let tl := (cs.reverse.takeWhile (fun c => c ≠ '/')).reverse
    if tl = [] then "/" else String.mk tl

-- joinPath: Go path.Join — drop empty elements, join with slashes, clean.
def joinPath (elems : List String) : String :=
  let es := elems.filter (fun e => e ≠ "")
  if es = [] then "" else clean (String.intercalate "/" es)

-- provenanceFilePath: the file path generateStatement creates, exactly as
-- computed in the source: path.Join(path.Dir(pf), path.Base(pf),
-- "-provenance.json").
def provenanceFilePath (source : String) : String :=
  joinPath [dirPath source, basePath source, "-provenance.json"]

-- The outcome of the file-writing part of generateStatement; every branch
-- only logs, none propagates an error.
inductive GenOutcome where
  | createErrorLogged
  | encodeErrorLogged
  | written
  deriving DecidableEq, Repr

-- generateStatementOutcome: os.Create failure is logged and returns,
-- encoder failure is logged; createOk and encodeOk model the two external
-- file-system collaborators.
def generateStatementOutcome (createOk encodeOk : Bool) : GenOutcome :=
  if !createOk then GenOutcome.createErrorLogged
  else if !encodeOk then GenOutcome.encodeErrorLogged
  else GenOutcome.written

-- How the exec function terminates after the engine run.
inductive ExecExit where
  | returnedError (e : String)
  | exitedProcess (code : Nat)
  | returnedNil
  deriving DecidableEq, Repr

-- What the tail of exec did after the engine run.
structure TailResult where
  dumped : Bool
  provenanceRun : Bool
  provenanceOutcome : Option GenOutcome
  exit : ExecExit
  deriving DecidableEq, Repr

-- execTail: the control flow of exec after Execer.Exec returns — dump and
-- return on an execution error, os.Exit(1) on a terminal failure status,
-- and only otherwise call generateStatement and return nil.
def execTail (execErr : Option String) (status : String) (createOk encodeOk : Bool) :
    TailResult :=
  match execErr with
  | some e => ⟨true, false, none, ExecExit.returnedError e⟩
  | none =>
    if status = statusError ∨ status = statusFailing ∨ status = statusKilled then
      ⟨false, false, none, ExecExit.exitedProcess 1⟩
    else
      ⟨false, true, some (generateStatementOutcome createOk encodeOk), ExecExit.returnedNil⟩

-- Concrete step list used by the example-level theorems below.
def sampleSteps : List Step :=
  [⟨"clone", "alpine", RunPolicy.runOnSuccess, ErrPolicy.errFail⟩,
   ⟨"build", "golang", RunPolicy.runOnSuccess, ErrPolicy.errFail⟩,
   ⟨"test", "golang", RunPolicy.runOnSuccess, ErrPolicy.errFail⟩,
   ⟨"deploy", "alpine", RunPolicy.runOnSuccess, ErrPolicy.errFail⟩]

-- A writer.Add collaborator that always succeeds.
def noAddErr : List (String × LogVal) → Option String := fun _ => none

-- A digest collaborator whose lookup always fails.
def noDigest : String → Option String := fun _ => none

theorem splitOnChar_ne_nil (c : Char) : ∀ l : List Char, splitOnChar c l ≠ [] := by
  intro l
  cases l with
  | nil => simp [splitOnChar]
  | cons a rest =>
    simp only [splitOnChar]
    cases h : splitOnChar c rest with
    | nil => simp
    | cons hd tl => by_cases hac : a = c <;> simp [hac]

theorem length_splitOnChar (c : Char) :
    ∀ l : List Char, (splitOnChar c l).length = l.count c + 1 := by
  intro l
  induction l with
  | nil => simp [splitOnChar]
  | cons a rest ih =>
    cases h : splitOnChar c rest with
    | nil => exact absurd h (splitOnChar_ne_nil c rest)
    | cons hd tl =>
      rw [h] at ih
      by_cases hac : a = c
      · subst hac
        simp [splitOnChar, h, List.count_cons_self]
        simp at ih
        omega
      · have hca : c ≠ a := fun hh => hac hh.symm
        simp [splitOnChar, h, hac, List.count_cons_of_ne hca]
        simp at ih
        omega

theorem addAll_none (addErr : List (String × LogVal) → Option String)
    (hall : ∀ r, addErr r = none) :
    ∀ rs, addAll addErr rs = (rs, none) := by
  intro rs
  induction rs with
  | nil => rfl
  | cons r rest ih => simp [addAll, hall r, ih]

theorem nextCalls_shift : ∀ (n v : Nat), nextCalls n ⟨v⟩ = (List.range' (v + 1) n, ⟨v + n⟩) := by
  intro n
  induction n with
  | zero => intro v; simp [nextCalls, List.range']
  | succ m ih =>
    intro v
    have hv : v + 1 + m = v + (m + 1) := by omega
    simp [nextCalls, sequence.next, ih (v + 1), List.range'_succ, hv]

theorem length_includePhase (incl : List String) (steps : List Step) :
    (includePhase incl steps).length = steps.length := by
  by_cases hg : 0 < incl.length <;> simp [includePhase, hg]

theorem length_excludePhase (excl : List String) (steps : List Step) :
    (excludePhase excl steps).length = steps.length := by
  by_cases hg : 0 < excl.length <;> simp [excludePhase, hg]

theorem length_resumePhase (r : String) (excl : List String) :
    ∀ steps : List Step, (resumePhase r excl steps).length = steps.length := by
  intro steps
  induction steps with
  | nil => rfl
  | cons s rest ih => by_cases hs : s.name = r <;> simp [resumePhase, hs, ih]

theorem length_selectSteps (incl excl : List String) (r : String) (steps : List Step) :
    (selectSteps incl excl r steps).length = steps.length := by
  by_cases hr : r ≠ "" <;>
    simp [selectSteps, hr, length_resumePhase, length_excludePhase, length_includePhase]

theorem includePhase_get (incl : List String) (l : List Step) (i : Nat)
    (h : i < l.length) (h2 : i < (includePhase incl l).length) :
    (includePhase incl l).get ⟨i, h2⟩
      = (if 0 < incl.length then includeMark incl (l.get ⟨i, h⟩) else l.get ⟨i, h⟩) := by
  by_cases hg : 0 < incl.length <;> simp [includePhase, hg, List.get_eq_getElem]

theorem excludePhase_get (excl : List String) (l : List Step) (i : Nat)
    (h : i < l.length) (h2 : i < (excludePhase excl l).length) :
    (excludePhase excl l).get ⟨i, h2⟩ = excludeMark excl (l.get ⟨i, h⟩) := by
  by_cases hg : 0 < excl.length
  · simp [excludePhase, hg, List.get_eq_getElem]
  · have hnil : excl = [] := List.length_eq_zero.mp (Nat.eq_zero_of_not_pos hg)
    subst hnil
    simp [excludePhase, excludeMark, List.get_eq_getElem]

-- The policy-free part of a step: everything selection must not change.
def stepShape (s : Step) : String × String × ErrPolicy := (s.name, s.image, s.errPolicy)

theorem stepShape_includeMark (incl : List String) (s : Step) :
    stepShape (includeMark incl s) = stepShape s := by
  unfold includeMark stepShape
  split_ifs <;> rfl

theorem stepShape_excludeMark (excl : List String) (s : Step) :
    stepShape (excludeMark excl s) = stepShape s := by
  unfold excludeMark stepShape
  split_ifs <;> rfl

theorem stepShape_resumeMark (excl : List String) (s : Step) :
    stepShape (resumeMark excl s) = stepShape s := by
  unfold resumeMark stepShape
  split_ifs <;> rfl

theorem map_shape_includePhase (incl : List String) (steps : List Step) :
    (includePhase incl steps).map stepShape = steps.map stepShape := by
  by_cases hg : 0 < incl.length
  · have hfun : stepShape ∘ includeMark incl = stepShape :=
      funext fun s => stepShape_includeMark incl s
    simp [includePhase, hg, List.map_map, hfun]
  · simp [includePhase, hg]

theorem map_shape_excludePhase (excl : List String) (steps : List Step) :
    (excludePhase excl steps).map stepShape = steps.map stepShape := by
  by_cases hg : 0 < excl.length
  · have hfun : stepShape ∘ excludeMark excl = stepShape :=
      funext fun s => stepShape_excludeMark excl s
    simp [excludePhase, hg, List.map_map, hfun]
  · simp [excludePhase, hg]

theorem map_shape_resumePhase (r : String) (excl : List String) :
    ∀ steps : List Step, (resumePhase r excl steps).map stepShape = steps.map stepShape := by
  intro steps
  induction steps with
  | nil => rfl
  | cons s rest ih =>
    by_cases hs : s.name = r
    · simp [resumePhase, hs]
    · simp [resumePhase, hs, ih, stepShape_resumeMark]

theorem map_shape_selectSteps (incl excl : List String) (r : String) (steps : List Step) :
    (selectSteps incl excl r steps).map stepShape = steps.map stepShape := by
  by_cases hr : r ≠ "" <;>
    simp [selectSteps, hr, map_shape_resumePhase, map_shape_excludePhase,
      map_shape_includePhase]

theorem resumePhase_get (r : String) (excl : List String) :
    ∀ (steps : List Step) (i : Nat) (h : i < steps.length)
      (h2 : i < (resumePhase r excl steps).length),
      (resumePhase r excl steps).get ⟨i, h2⟩
        = if i < steps.findIdx (fun s => s.name == r)
          then resumeMark excl (steps.get ⟨i, h⟩)
          else steps.get ⟨i, h⟩ := by
  intro steps
  induction steps with
  | nil => intro i h h2; exact absurd h (Nat.not_lt_zero i)
  | cons s rest ih =>
    intro i h h2
    by_cases hs : s.name = r
    · have hidx : (s :: rest).findIdx (fun t => t.name == r) = 0 := by
        simp [List.findIdx_cons, hs]
      simp [resumePhase, hs, hidx, List.get_eq_getElem]
    · have hb : (s.name == r) = false := by simp [hs]
      have hidx : (s :: rest).findIdx (fun t => t.name == r)
          = rest.findIdx (fun t => t.name == r) + 1 := by
        simp [List.findIdx_cons, hb]
      cases i with
      | zero =>
        simp [resumePhase, hs, hidx, List.get_eq_getElem]
      | succ j =>
        have hj : j < rest.length := Nat.lt_of_succ_lt_succ h
        have hj2 : j < (resumePhase r excl rest).length := by
          rw [length_resumePhase]; exact hj
        have hrec := ih j hj hj2
        simp only [List.get_eq_getElem] at hrec ⊢
        simp [resumePhase, hs, hidx, Nat.succ_lt_succ_iff, hrec]

theorem find_first {α : Type} (p : α → Bool) :
    ∀ l : List α, (∃ a ∈ l, p a = true) →
      ∃ i, ∃ h : i < l.length,
        p (l.get ⟨i, h⟩) = true
        ∧ (∀ k (hk : k < l.length), k < i → p (l.get ⟨k, hk⟩) = false)
        ∧ l.find? p = some (l.get ⟨i, h⟩) := by
  intro l
  induction l with
  | nil => intro hex; rcases hex with ⟨a, ha, _⟩; cases ha
  | cons x xs ih =>
    intro hex
    cases hx : p x with
    | true =>
      refine ⟨0, Nat.succ_pos _, ?_, ?_, ?_⟩
      · simpa using hx
      · intro k hk hk0; exact absurd hk0 (Nat.not_lt_zero k)
      · simp [List.find?, hx]
    | false =>
      have hex2 : ∃ a ∈ xs, p a = true := by
        rcases hex with ⟨a, ha, hpa⟩
        rcases List.mem_cons.mp ha with hax | haxs
        · subst hax; rw [hx] at hpa; cases hpa
        · exact ⟨a, haxs, hpa⟩
      rcases ih hex2 with ⟨i, hi, hpi, hbefore, hfind⟩
      refine ⟨i + 1, Nat.succ_lt_succ hi, ?_, ?_, ?_⟩
      · simpa using hpi
      · intro k hk hki
        cases k with
        | zero => simpa using hx
        | succ m =>
          have hm : m < xs.length := Nat.lt_of_succ_lt_succ hk
          have := hbefore m hm (Nat.lt_of_succ_lt_succ hki)
          simpa using this
      · simp [List.find?, hx, hfind]

theorem buildStageSteps_names (sid : Int) :
    ∀ (steps : List Step) (acc : List DroneStep),
      (buildStageSteps sid acc steps).map (fun d => d.name)
        = acc.map (fun d => d.name)
          ++ (steps.filter (fun s => s.runPolicy != RunPolicy.runNever)).map
              (fun s => s.name) := by
  intro steps
  induction steps with
  | nil => intro acc; simp [buildStageSteps]
  | cons s rest ih =>
    intro acc
    by_cases hn : s.runPolicy = RunPolicy.runNever
    · simp [buildStageSteps, hn, ih, List.filter_cons]
    · simp [buildStageSteps, hn, ih, List.filter_cons]

/-- C8: on a freshly constructed sequence counter the i-th next() call returns i:
after N calls the returned values are exactly 1..N in order (so each value of
{1..N} is returned once and the final stored value equals N), and curr returns
the latest value without mutating the counter, 0 before any next() call. -/
theorem sequence_next_returns_index (N : Nat) :
    (nextCalls N ⟨0⟩).1 = List.range' 1 N
    ∧ (nextCalls N ⟨0⟩).2.value = N
    ∧ (∀ s : sequence, (sequence.curr s).1 = s.value ∧ (sequence.curr s).2 = s)
    ∧ (sequence.curr ⟨0⟩).1 = 0 := by
  have h := nextCalls_shift N 0
  refine ⟨?_, ?_, fun s => ⟨rfl, rfl⟩, rfl⟩
  · rw [h]
  · rw [h]
    simp

-- A concrete per-step log sink with step number 7 and step name build.
def cxLogger : jsonlogger := ⟨"build", 7, "pipe.log", ⟨0⟩⟩

/-- C1 counterexample: writing the input a-newline-b-newline-c-newline to the
sink produces three records whose keys are exactly stepNumber, stepName and
line — no record carries a running line index, and in particular no field of
any record holds the ordinal value 1 — refuting that each record is tagged
with a line ordinal taken from the stream's own counter. -/
theorem write_no_line_ordinal_counterexample :
    (cxLogger.write noAddErr ("a\nb\nc\n".toList)).appended
        = [mkRecord 7 "build" "a", mkRecord 7 "build" "b", mkRecord 7 "build" "c"]
    ∧ (∀ r ∈ (cxLogger.write noAddErr ("a\nb\nc\n".toList)).appended,
        r.map Prod.fst = ["stepNumber", "stepName", "line"])
    ∧ ¬ (∃ r ∈ (cxLogger.write noAddErr ("a\nb\nc\n".toList)).appended,
          ∃ kv ∈ r, kv.2 = LogVal.intVal 1) := by
  refine ⟨rfl, by decide, by decide⟩

/-- C1 (amended): for every byte input written to the per-step log sink with
all appends succeeding, each resulting line is appended as exactly one
structured record tagged with the step's number and the step's name — every
record has exactly the keys stepNumber, stepName and line, so no running line
index is recorded (the sink carries the stream's counter but never uses it);
writing the three lines with a trailing newline produces exactly 3 records,
and without the trailing terminator also exactly 3 records, not 4. -/
theorem write_records_step_tagged (j : jsonlogger)
    (addErr : List (String × LogVal) → Option String) (b : List Char)
    (hall : ∀ r, addErr r = none) :
    (j.write addErr b).appended
        = (split b).map (fun part => mkRecord j.number j.name part)
    ∧ (∀ r ∈ (j.write addErr b).appended,
        r.map Prod.fst = ["stepNumber", "stepName", "line"])
    ∧ (j.write addErr ("a\nb\nc\n".toList)).appended
        = [mkRecord j.number j.name "a", mkRecord j.number j.name "b",
           mkRecord j.number j.name "c"]
    ∧ (j.write addErr ("a\nb\nc".toList)).appended
        = [mkRecord j.number j.name "a", mkRecord j.number j.name "b",
           mkRecord j.number j.name "c"] := by
  have h1 : (j.write addErr b).appended
      = (split b).map (fun part => mkRecord j.number j.name part) := by
    simp [jsonlogger.write, addAll_none addErr hall]
  have h2 : (j.write addErr ("a\nb\nc\n".toList)).appended
      = (split ("a\nb\nc\n".toList)).map (fun part => mkRecord j.number j.name part) := by
    simp [jsonlogger.write, addAll_none addErr hall]
  have h3 : (j.write addErr ("a\nb\nc".toList)).appended
      = (split ("a\nb\nc".toList)).map (fun part => mkRecord j.number j.name part) := by
    simp [jsonlogger.write, addAll_none addErr hall]
  refine ⟨h1, ?_, ?_, ?_⟩
  · intro r hr
    rw [h1] at hr
    rcases List.mem_map.mp hr with ⟨part, _, hpart⟩
    rw [← hpart]
    rfl
  · rw [h2]
    rfl
  · rw [h3]
    rfl

/-- Witness for C1 (amended): the universal tagging law evaluated on the
concrete sink with the always-succeeding writer and a two-line input. -/
theorem write_records_step_tagged_witness :
    (∀ r, noAddErr r = none)
    ∧ ((cxLogger.write noAddErr ("hi\nthere".toList)).appended
          = (split ("hi\nthere".toList)).map
              (fun part => mkRecord cxLogger.number cxLogger.name part)
        ∧ (∀ r ∈ (cxLogger.write noAddErr ("hi\nthere".toList)).appended,
            r.map Prod.fst = ["stepNumber", "stepName", "line"])
        ∧ (cxLogger.write noAddErr ("a\nb\nc\n".toList)).appended
            = [mkRecord cxLogger.number cxLogger.name "a",
               mkRecord cxLogger.number cxLogger.name "b",
               mkRecord cxLogger.number cxLogger.name "c"]
        ∧ (cxLogger.write noAddErr ("a\nb\nc".toList)).appended
            = [mkRecord cxLogger.number cxLogger.name "a",
               mkRecord cxLogger.number cxLogger.name "b",
               mkRecord cxLogger.number cxLogger.name "c"]) :=
  ⟨fun _ => rfl,
   write_records_step_tagged cxLogger noAddErr ("hi\nthere".toList) (fun _ => rfl)⟩

/-- C10: for every byte input, a fully successful write appends exactly k+1
records, where k is the number of newline characters remaining after stripping
at most one trailing newline; the empty input and the single-newline input
each append exactly one record whose line field is the empty string. -/
theorem write_record_count (j : jsonlogger)
    (addErr : List (String × LogVal) → Option String) (b : List Char)
    (hall : ∀ r, addErr r = none) :
    (j.write addErr b).appended.length = (trimSuffixNl b).count '\n' + 1
    ∧ (j.write addErr []).appended = [mkRecord j.number j.name ""]
    ∧ (j.write addErr ['\n']).appended = [mkRecord j.number j.name ""] := by
  refine ⟨?_, ?_, ?_⟩
  · simp [jsonlogger.write, addAll_none addErr hall, split, length_splitOnChar]
  · simp [jsonlogger.write, addAll_none addErr hall, split, trimSuffixNl, splitOnChar]
  · simp [jsonlogger.write, addAll_none addErr hall, split, trimSuffixNl, splitOnChar]

-- A concrete per-step log sink with step number 3 and step name test.
def wLogger : jsonlogger := ⟨"test", 3, "w.log", ⟨0⟩⟩

/-- Witness for C10: the record-count law evaluated on the concrete sink with
the always-succeeding writer and the input x-newline-y. -/
theorem write_record_count_witness :
    ((wLogger.write noAddErr ("x\ny".toList)).appended.length
        = (trimSuffixNl ("x\ny".toList)).count '\n' + 1)
    ∧ (wLogger.write noAddErr []).appended = [mkRecord wLogger.number wLogger.name ""]
    ∧ (wLogger.write noAddErr ['\n']).appended
        = [mkRecord wLogger.number wLogger.name ""] :=
  write_record_count wLogger noAddErr ("x\ny".toList) (fun _ => rfl)

/-- C5: after the include and exclude phases the step named clone keeps its
prior run policy regardless of directives; every other step ends up marked
Never exactly when the include set is non-empty and does not contain its name,
or the exclude set contains its name — in particular a name in both sets ends
up Never — and is otherwise unchanged. -/
theorem include_exclude_phase_policy (incl excl : List String) (steps : List Step)
    (i : Nat) (h : i < steps.length)
    (h2 : i < (excludePhase excl (includePhase incl steps)).length) :
    (excludePhase excl (includePhase incl steps)).get ⟨i, h2⟩
      = (if (steps.get ⟨i, h⟩).name = "clone" then steps.get ⟨i, h⟩
         else if (incl ≠ [] ∧ (steps.get ⟨i, h⟩).name ∉ incl)
                ∨ (steps.get ⟨i, h⟩).name ∈ excl
         then { steps.get ⟨i, h⟩ with runPolicy := RunPolicy.runNever }
         else steps.get ⟨i, h⟩) := by
  have hin : i < (includePhase incl steps).length := by
    rw [length_includePhase]; exact h
  rw [excludePhase_get excl _ i hin h2, includePhase_get incl steps i h hin]
  generalize steps.get ⟨i, h⟩ = s
  by_cases hclone : s.name = "clone"
  · by_cases hg : 0 < incl.length <;>
      simp [includeMark, excludeMark, hclone, hg]
  · by_cases hg : 0 < incl.length
    · have hne : incl ≠ [] := by
        intro hnil; rw [hnil] at hg; simp at hg
      by_cases hmem : s.name ∈ incl
      · by_cases hexc : s.name ∈ excl <;>
          simp [includeMark, excludeMark, hclone, hg, hmem, hexc, hne]
      · by_cases hexc : s.name ∈ excl <;>
          simp [includeMark, excludeMark, hclone, hg, hmem, hexc, hne]
    · have hnil : incl = [] := List.length_eq_zero.mp (Nat.eq_zero_of_not_pos hg)
      subst hnil
      by_cases hexc : s.name ∈ excl <;>
        simp [includeMark, excludeMark, hclone, hexc]

/-- Witness for C5: on the sample steps with include {build, test} and exclude
{test}, the step test (present in both sets) ends up marked Never. -/
theorem include_exclude_phase_policy_witness :
    (excludePhase ["test"] (includePhase ["build", "test"] sampleSteps)).get ⟨2, by decide⟩
      = { name := "test", image := "golang", runPolicy := RunPolicy.runNever,
          errPolicy := ErrPolicy.errFail } :=
  include_exclude_phase_policy ["build", "test"] ["test"] sampleSteps 2 (by decide)
    (by decide)

/-- C6: the resume-at phase scans steps in declared order and stops at the
first step whose name matches resume-at: every step strictly before that point
is transformed by the per-step resume rule (clone untouched, otherwise marked
Never exactly when its name is in the exclude set), and every step from the
resume point on keeps its current policy; for resume-at test with exclude
{build} on steps clone, build, test, deploy, clone runs, build is skipped, and
test and deploy run. -/
theorem resume_phase_policy :
    (∀ (resumeAt : String) (excl : List String) (steps : List Step) (i : Nat)
       (h : i < steps.length) (h2 : i < (resumePhase resumeAt excl steps).length),
       (resumePhase resumeAt excl steps).get ⟨i, h2⟩
         = if i < steps.findIdx (fun s => s.name == resumeAt)
           then resumeMark excl (steps.get ⟨i, h⟩)
           else steps.get ⟨i, h⟩)
    ∧ (selectSteps [] ["build"] "test" sampleSteps).map (fun s => s.runPolicy)
        = [RunPolicy.runOnSuccess, RunPolicy.runNever, RunPolicy.runOnSuccess,
           RunPolicy.runOnSuccess]
    ∧ (buildStageSteps 1 [] (selectSteps [] ["build"] "test" sampleSteps)).map
        (fun d => d.name) = ["clone", "test", "deploy"] :=
  ⟨fun resumeAt excl steps i h h2 => resumePhase_get resumeAt excl steps i h h2,
   by decide, by decide⟩

/-- Witness for C6: on the sample steps with resume-at test and exclude
{build}, the step build (before the resume point, excluded) is marked Never
by the resume phase. -/
theorem resume_phase_policy_witness :
    (resumePhase "test" ["build"] sampleSteps).get ⟨1, by decide⟩
      = { name := "build", image := "golang", runPolicy := RunPolicy.runNever,
          errPolicy := ErrPolicy.errFail } :=
  resume_phase_policy.1 "test" ["build"] sampleSteps 1 (by decide) (by decide)

/-- C2 (amended): step selection never removes or reorders steps — after all
three phases the compiled step list has every step's name, image and error
policy unchanged in declared order, with only run policies possibly changed —
and the provenance assembler consumes this full list (its build configuration
is the whole list and its materials have one entry per step); the stage step
roster, however, excludes steps marked Never: it lists exactly the names of
the non-Never steps, in order. -/
theorem selection_preserves_steps_roster_filters :
    (∀ (incl excl : List String) (r : String) (steps : List Step),
       (selectSteps incl excl r steps).map stepShape = steps.map stepShape)
    ∧ (∀ (sid : Int) (acc : List DroneStep) (steps : List Step),
       (buildStageSteps sid acc steps).map (fun d => d.name)
         = acc.map (fun d => d.name)
           ++ (steps.filter (fun s => s.runPolicy != RunPolicy.runNever)).map
               (fun s => s.name))
    ∧ (∀ (pKind pType : String) (buildID : Int) (params : List (String × String))
         (steps : List Step) (digestOf : String → Option String),
       (mkStatement pKind pType buildID params steps digestOf).buildConfigSteps = steps
       ∧ (mkStatement pKind pType buildID params steps digestOf).mats.length
           = steps.length) :=
  ⟨fun incl excl r steps => map_shape_selectSteps incl excl r steps,
   fun sid acc steps => buildStageSteps_names sid steps acc,
   fun _ _ _ _ steps digestOf => ⟨rfl, by simp [mkStatement, materials]⟩⟩

/-- C2 counterexample: with steps clone, build, test and include {build}, the
selected list still holds all three steps (test marked Never), but the stage
step roster built from it contains only clone and build — the roster does not
see the full list, refuting that both downstream consumers see the steps
marked Never. -/
theorem roster_excludes_never_counterexample :
    (selectSteps ["build"] [] "" (sampleSteps.take 3)).map (fun s => s.name)
        = ["clone", "build", "test"]
    ∧ (selectSteps ["build"] [] "" (sampleSteps.take 3)).map (fun s => s.runPolicy)
        = [RunPolicy.runOnSuccess, RunPolicy.runOnSuccess, RunPolicy.runNever]
    ∧ (buildStageSteps 1 [] (selectSteps ["build"] [] "" (sampleSteps.take 3))).map
        (fun d => d.name) = ["clone", "build"]
    ∧ ¬ (∃ d ∈ buildStageSteps 1 [] (selectSteps ["build"] [] "" (sampleSteps.take 3)),
          d.name = "test") :=
  ⟨by decide, by decide, by decide, by decide⟩

/-- C7: the provenance materials list has exactly one entry per step of the
unfiltered step list, walked in declared order; a step whose digest lookup
fails still yields an entry, with the empty digest string under the sha256
key, rather than being omitted. -/
theorem materials_per_step_empty_digest (steps : List Step)
    (digestOf : String → Option String) :
    (materials steps digestOf).length = steps.length
    ∧ ∀ (i : Nat) (h : i < steps.length) (h2 : i < (materials steps digestOf).length),
        (materials steps digestOf).get ⟨i, h2⟩
          = { uri := "pkg:" ++ (steps.get ⟨i, h⟩).image ++ "@"
                  ++ ((digestOf (steps.get ⟨i, h⟩).image).getD ""),
              digest := [("sha256", (digestOf (steps.get ⟨i, h⟩).image).getD "")] }
        ∧ (digestOf (steps.get ⟨i, h⟩).image = none →
            (materials steps digestOf).get ⟨i, h2⟩
              = { uri := "pkg:" ++ (steps.get ⟨i, h⟩).image ++ "@",
                  digest := [("sha256", "")] }) := by
  refine ⟨by simp [materials], ?_⟩
  intro i h h2
  constructor
  · simp [materials, List.get_eq_getElem]
  · intro hnone
    simp only [List.get_eq_getElem] at hnone
    simp [materials, List.get_eq_getElem, hnone]

/-- Witness for C7: on the sample steps with a digest collaborator that always
fails, the first material entry is present with the empty digest string. -/
theorem materials_per_step_empty_digest_witness :
    (materials sampleSteps noDigest).get ⟨0, by decide⟩
      = { uri := "pkg:alpine@", digest := [("sha256", "")] } := by
  have h := (materials_per_step_empty_digest sampleSteps noDigest).2 0 (by decide)
    (by decide)
  exact h.2 rfl

/-- C3 (amended): a provenance statement is produced only when the engine run
returns no error and the final stage status is none of error, failure and
killed; on the path where it is produced, exec returns nil regardless of
whether the provenance file creation or encoding failed — provenance-assembly
failures are logged and swallowed, never propagated to the run's
success/failure determination. -/
theorem provenance_only_on_success_and_swallowed (execErr : Option String)
    (status : String) (createOk encodeOk : Bool) :
    ((execTail execErr status createOk encodeOk).provenanceRun = true
      ↔ (execErr = none
          ∧ ¬ (status = statusError ∨ status = statusFailing ∨ status = statusKilled)))
    ∧ ((execTail execErr status createOk encodeOk).provenanceRun = false
        ∨ (execTail execErr status createOk encodeOk).exit = ExecExit.returnedNil) := by
  cases execErr with
  | some e => simp [execTail]
  | none =>
    by_cases hst : status = statusError ∨ status = statusFailing ∨ status = statusKilled
    · simp [execTail, hst]
    · simp [execTail, hst]

/-- Witness for C3 (amended): a successful run whose provenance file creation
fails still produces the statement attempt and returns nil. -/
theorem provenance_only_on_success_and_swallowed_witness :
    (((execTail none statusPassing false true).provenanceRun = true
      ↔ ((none : Option String) = none
          ∧ ¬ (statusPassing = statusError ∨ statusPassing = statusFailing
                ∨ statusPassing = statusKilled)))
    ∧ ((execTail none statusPassing false true).provenanceRun = false
        ∨ (execTail none statusPassing false true).exit = ExecExit.returnedNil)) :=
  provenance_only_on_success_and_swallowed none statusPassing false true

/-- C3 counterexample: a build attempt that completed with final stage status
failure (and no engine error) exits the process with code 1 before provenance
assembly ever runs, refuting that a provenance statement is produced for
every completed build attempt including failing ones. -/
theorem provenance_skipped_on_failing_status :
    (execTail none statusFailing true true).provenanceRun = false
    ∧ (execTail none statusFailing true true).exit = ExecExit.exitedProcess 1 :=
  ⟨rfl, rfl⟩

/-- C4 (code bug): for the pipeline source file .drone.yml the code computes
a provenance output path naming the file -provenance.json inside a directory
called .drone.yml — a path whose parent is the source file itself rather than
the source file's directory "." — so the output file is not created in the
same directory as the pipeline source file. -/
theorem provenance_path_inside_source_file :
    provenanceFilePath ".drone.yml" = ".drone.yml/-provenance.json"
    ∧ dirPath (provenanceFilePath ".drone.yml") = ".drone.yml"
    ∧ dirPath ".drone.yml" = "."
    ∧ dirPath (provenanceFilePath ".drone.yml") ≠ dirPath ".drone.yml" :=
  ⟨rfl, rfl, rfl, by decide⟩

/-- C9: opening a log stream for a step name looks the step up in the stage
step roster by exact name match; under the precondition that some roster step
has that name, the returned sink is tagged with the name and number of the
first matching step and carries the streamer's writer and counter, and the
no-match branch (the nil-step access) is not taken. -/
theorem stream_first_match (j : jSONFileStreamer) (stageSteps : List DroneStep)
    (name : String) (hex : ∃ s ∈ stageSteps, s.name = name) :
    ∃ i, ∃ h : i < stageSteps.length,
      (stageSteps.get ⟨i, h⟩).name = name
      ∧ (∀ k (hk : k < stageSteps.length), k < i → (stageSteps.get ⟨k, hk⟩).name ≠ name)
      ∧ j.stream stageSteps name
          = some { writer := j.writer, seq := j.seq,
                   name := (stageSteps.get ⟨i, h⟩).name,
                   number := (stageSteps.get ⟨i, h⟩).number }
      ∧ j.stream stageSteps name ≠ none := by
  have hex2 : ∃ s ∈ stageSteps, (fun s => s.name == name) s = true := by
    rcases hex with ⟨s, hs, hn⟩
    exact ⟨s, hs, by simp [hn]⟩
  rcases find_first (fun s => s.name == name) stageSteps hex2 with ⟨i, hi, hpi, hbef, hfind⟩
  refine ⟨i, hi, ?_, ?_, ?_, ?_⟩
  · simpa using hpi
  · intro k hk hki
    have hb := hbef k hk hki
    simp at hb
    exact hb
  · simp [jSONFileStreamer.stream, hfind]
  · simp [jSONFileStreamer.stream, hfind]

-- A concrete streamer and stage roster for the stream witness.
def streamerEx : jSONFileStreamer := ⟨⟨0⟩, ⟨0⟩, "logs/p1.log", "logs/p1.log"⟩

def rosterEx : List DroneStep :=
  [⟨1, 1, "clone", statusPending, false⟩, ⟨1, 2, "build", statusPending, false⟩]

/-- Witness for C9: looking up the step build in a two-step roster returns a
sink tagged with its name and number. -/
theorem stream_first_match_witness :
    (∃ s ∈ rosterEx, s.name = "build")
    ∧ ∃ i, ∃ h : i < rosterEx.length,
        (rosterEx.get ⟨i, h⟩).name = "build"
        ∧ (∀ k (hk : k < rosterEx.length), k < i → (rosterEx.get ⟨k, hk⟩).name ≠ "build")
        ∧ streamerEx.stream rosterEx "build"
            = some { writer := streamerEx.writer, seq := streamerEx.seq,
                     name := (rosterEx.get ⟨i, h⟩).name,
                     number := (rosterEx.get ⟨i, h⟩).number }
        ∧ streamerEx.stream rosterEx "build" ≠ none :=
  ⟨by decide, stream_first_match streamerEx rosterEx "build" (by decide)⟩

end DroneProvenance
